import Mathlib

/-
Shallow embedding of the NBT decoder in src/nbt.hpp.

Modelling conventions:
- The byte buffer (std::span of std::byte) is a List Nat of byte values
  together with a cursor position, mirroring the data/pos members of NBTFile.
- Fallible reads (std::optional) are modelled by the Res type.  Besides
  success (ok) and std::nullopt (fail) it has an oob outcome marking the
  executions in which the C++ performs an out-of-range access on the
  underlying span (undefined behavior in C++): indexing data[pos] at
  pos = size in readI8, and subspan with an excessive count in readString.
- The recursive tag readers are defined with a fuel parameter that bounds
  the depth of the mutual recursion; nofuel marks fuel exhaustion.  The
  top-level read supplies fuel far larger than any execution of the C++
  can consume (each compound-loop iteration consumes at least one input
  byte, and a single list can iterate at most 2^64 - 1 times), so nofuel
  is unreachable from read; no theorem below depends on that fact.
- Machine integers are Int with explicit twos-complement conversion;
  size_t arithmetic is Nat with explicit reduction mod 2^64 where the C++
  converts a signed value to size_t.
- float/double values are represented by the bit pattern of the i32/i64
  they are bit_cast from (readF32/readF64 reinterpret bits; no claim
  depends on the IEEE-754 interpretation).
-/

namespace NBT

structure NBTState where
  data : List Nat
  pos : Nat
deriving Repr, DecidableEq

inductive Res (α : Type) where
  | ok (a : α) (s : NBTState)
  | fail
  | oob
  | nofuel

def Res.bind {α β : Type} : Res α → (α → NBTState → Res β) → Res β
  | .ok a s, f => f a s
  | .fail, _ => .fail
  | .oob, _ => .oob
  | .nofuel, _ => .nofuel

@[simp] theorem Res.bind_ok {α β : Type} (a : α) (s : NBTState) (f : α → NBTState → Res β) :
    (Res.ok a s).bind f = f a s := rfl

@[simp] theorem Res.bind_fail {α β : Type} (f : α → NBTState → Res β) :
    (Res.fail : Res α).bind f = .fail := rfl

@[simp] theorem Res.bind_oob {α β : Type} (f : α → NBTState → Res β) :
    (Res.oob : Res α).bind f = .oob := rfl

@[simp] theorem Res.bind_nofuel {α β : Type} (f : α → NBTState → Res β) :
    (Res.nofuel : Res α).bind f = .nofuel := rfl

/-- Twos-complement reinterpretation of a w-bit unsigned value. -/
def toSigned (w : Nat) (u : Nat) : Int :=
  if u % 2 ^ w < 2 ^ (w - 1) then ((u % 2 ^ w : Nat) : Int)
  else ((u % 2 ^ w : Nat) : Int) - ((2 ^ w : Nat) : Int)

/-- static_cast of a signed value to size_t: reduction mod 2^64. -/
def intToU64 (i : Int) : Nat := (i % ((2 : Int) ^ 64)).toNat

/-- NBTFile::readI8.  The source guard is pos > data.size(); at
pos = data.size() the guard passes and data[pos] is indexed out of
range, which the model reports as oob. -/
def readI8 (s : NBTState) : Res Int :=
  if s.pos > s.data.length then .fail
  else
    match s.data[s.pos]? with
    | some b => .ok (toSigned 8 b) ⟨s.data, s.pos + 1⟩
    | none => .oob

/-- NBTFile::readI16: big-endian, guard pos + 2 > data.size(). -/
def readI16 (s : NBTState) : Res Int :=
  if s.pos + 2 > s.data.length then .fail
  else
    .ok (toSigned 16 (s.data.getD s.pos 0 * 256 + s.data.getD (s.pos + 1) 0))
      ⟨s.data, s.pos + 2⟩

/-- NBTFile::readI32: big-endian, guard pos + 4 > data.size(). -/
def readI32 (s : NBTState) : Res Int :=
  if s.pos + 4 > s.data.length then .fail
  else
    .ok (toSigned 32 (((s.data.getD s.pos 0 * 256 + s.data.getD (s.pos + 1) 0) * 256 +
        s.data.getD (s.pos + 2) 0) * 256 + s.data.getD (s.pos + 3) 0))
      ⟨s.data, s.pos + 4⟩

/-- NBTFile::readI64: big-endian, guard pos + 8 > data.size(). -/
def readI64 (s : NBTState) : Res Int :=
  if s.pos + 8 > s.data.length then .fail
  else
    .ok (toSigned 64 (((((((s.data.getD s.pos 0 * 256 + s.data.getD (s.pos + 1) 0) * 256 +
        s.data.getD (s.pos + 2) 0) * 256 + s.data.getD (s.pos + 3) 0) * 256 +
        s.data.getD (s.pos + 4) 0) * 256 + s.data.getD (s.pos + 5) 0) * 256 +
        s.data.getD (s.pos + 6) 0) * 256 + s.data.getD (s.pos + 7) 0))
      ⟨s.data, s.pos + 8⟩

/-- NBTFile::readF32: bit_cast of readI32; modelled by the bit pattern. -/
def readF32 (s : NBTState) : Res Int := readI32 s

/-- NBTFile::readF64: bit_cast of readI64; modelled by the bit pattern. -/
def readF64 (s : NBTState) : Res Int := readI64 s

/-- NBTFile::readID: readI8 followed by static_cast to the ID enum, which
keeps the int8 value (possibly negative or above 12). -/
def readID (s : NBTState) : Res Int := readI8 s

/-- NBTFile::readString.  Reads an i16 length; the source bound check
pos + size > data.size() adds the int16 to the size_t pos, so a negative
length wraps mod 2^64.  If the check passes, data.subspan(pos, sizeU) is
out of range (C++ UB, modelled as oob) whenever sizeU exceeds the
remaining byte count; otherwise the string bytes are taken and pos
advances by their count. -/
def readString (s : NBTState) : Res (List Nat) :=
  (readI16 s).bind fun size s1 =>
    let sizeU : Nat := intToU64 size
    if (s1.pos + sizeU) % 2 ^ 64 > s1.data.length then .fail
    else if sizeU > s1.data.length - s1.pos then .oob
    else .ok ((s1.data.drop s1.pos).take sizeU) ⟨s1.data, s1.pos + sizeU⟩

/-- The Tag variant (struct Tag : std::variant<...>).  Compound is the
std::map<std::string, Tag>, modelled as an association list of
(key bytes, tag) kept strictly sorted by key (the std::map invariant);
float/double carry the bit pattern of the underlying i32/i64. -/
inductive Tag where
  | end_
  | byte (v : Int)
  | short (v : Int)
  | int (v : Int)
  | long (v : Int)
  | float (bits : Int)
  | double (bits : Int)
  | string (v : List Nat)
  | byteArray (v : List Int)
  | intArray (v : List Int)
  | longArray (v : List Int)
  | list (v : List Tag)
  | compound (v : List (List Nat × Tag))

/-- Lexicographic byte-wise comparison, std::string operator<. -/
def bytesLt : List Nat → List Nat → Bool
  | [], [] => false
  | [], _ :: _ => true
  | _ :: _, [] => false
  | a :: as, b :: bs => if a < b then true else if b < a then false else bytesLt as bs

/-- std::map::emplace: ordered insert that does NOT replace an existing
binding for an equal key (CompoundTag::emplace). -/
def mapEmplace (k : List Nat) (v : Tag) : List (List Nat × Tag) → List (List Nat × Tag)
  | [] => [(k, v)]
  | (k1, v1) :: rest =>
    if bytesLt k k1 then (k, v) :: (k1, v1) :: rest
    else if bytesLt k1 k then (k1, v1) :: mapEmplace k v rest
    else (k1, v1) :: rest

/-- The count-bounded element loop shared by the three array readers
(readTag<ByteArrayTag> / <IntArrayTag> / <LongArrayTag>): read count
elements with the given primitive reader, failing fast. -/
def readIntElems (rd : NBTState → Res Int) : Nat → NBTState → Res (List Int)
  | 0, s => .ok [] s
  | n + 1, s =>
    (rd s).bind fun v s1 =>
      (readIntElems rd n s1).bind fun vs s2 => .ok (v :: vs) s2

mutual

/-- readTag<T> for the tag kind with the given ID code: dispatch reading
one payload.  Kind 0 is readTag<EndTag>, which consumes nothing and
returns EndTag; kinds outside 0..12 have no readTag and correspond to the
default switch branches in the callers, returning fail. -/
def readTagPayload (fuel : Nat) (kind : Int) (s : NBTState) : Res Tag :=
  match fuel with
  | 0 => .nofuel
  | fuel + 1 =>
    if kind = 0 then .ok .end_ s
    else if kind = 1 then (readI8 s).bind fun v s1 => .ok (.byte v) s1
    else if kind = 2 then (readI16 s).bind fun v s1 => .ok (.short v) s1
    else if kind = 3 then (readI32 s).bind fun v s1 => .ok (.int v) s1
    else if kind = 4 then (readI64 s).bind fun v s1 => .ok (.long v) s1
    else if kind = 5 then (readF32 s).bind fun v s1 => .ok (.float v) s1
    else if kind = 6 then (readF64 s).bind fun v s1 => .ok (.double v) s1
    else if kind = 7 then
      (readI32 s).bind fun len s1 =>
        (readIntElems readI8 (intToU64 len) s1).bind fun vs s2 => .ok (.byteArray vs) s2
    else if kind = 8 then (readString s).bind fun v s1 => .ok (.string v) s1
    else if kind = 9 then readTagList fuel s
    else if kind = 10 then readCompoundEntries fuel [] s
    else if kind = 11 then
      (readI32 s).bind fun len s1 =>
        (readIntElems readI32 (intToU64 len) s1).bind fun vs s2 => .ok (.intArray vs) s2
    else if kind = 12 then
      (readI32 s).bind fun len s1 =>
        (readIntElems readI64 (intToU64 len) s1).bind fun vs s2 => .ok (.longArray vs) s2
    else .fail

/-- readTag<ListTag>: read the element-kind byte; all 13 switch cases call
readListTag<T> for the kind-selected T (which reads the i32 count and
count elements); the default branch fails. -/
def readTagList (fuel : Nat) (s : NBTState) : Res Tag :=
  match fuel with
  | 0 => .nofuel
  | fuel + 1 =>
    (readID s).bind fun id s1 =>
      if 0 ≤ id ∧ id ≤ 12 then
        (readI32 s1).bind fun len s2 =>
          (readListElems fuel id (intToU64 len) s2).bind fun ts s3 => .ok (.list ts) s3
      else .fail

/-- The loop body of readListTag<T>: size = static_cast<size_t>(len)
iterations of readTag<T>, failing fast. -/
def readListElems (fuel : Nat) (kind : Int) (count : Nat) (s : NBTState) : Res (List Tag) :=
  match fuel with
  | 0 => .nofuel
  | fuel + 1 =>
    match count with
    | 0 => .ok [] s
    | n + 1 =>
      (readTagPayload fuel kind s).bind fun t s1 =>
        (readListElems fuel kind n s1).bind fun ts s2 => .ok (t :: ts) s2

/-- The loop of readTag<CompoundTag> with accumulator ct: read an ID; END
yields the accumulated compound; otherwise read the name, then switch on
the ID.  The ID::LIST case of the source has no break statement: after a
successful list entry it falls through into the ID::COMPOUND case, which
reads a further compound with std::move applied to the already moved-from
name (modelled as the empty string, the state a moved-from libstdc++
std::string is left in).  All other valid kinds decode one payload and
emplace it; kinds outside 1..12 hit the default branch and fail. -/
def readCompoundEntries (fuel : Nat) (acc : List (List Nat × Tag)) (s : NBTState) : Res Tag :=
  match fuel with
  | 0 => .nofuel
  | fuel + 1 =>
    (readID s).bind fun id s1 =>
      if id = 0 then .ok (.compound acc) s1
      else
        (readString s1).bind fun name s2 =>
          if id = 9 then
            (readTagList fuel s2).bind fun lv s3 =>
              (readCompoundEntries fuel [] s3).bind fun cv s4 =>
                readCompoundEntries fuel (mapEmplace [] cv (mapEmplace name lv acc)) s4
          else if 1 ≤ id ∧ id ≤ 12 then
            (readTagPayload fuel id s2).bind fun v s3 =>
              readCompoundEntries fuel (mapEmplace name v acc) s3
          else .fail

end

/-- readTag<CompoundTag> starts its loop with an empty CompoundTag. -/
def readTagCompound (fuel : Nat) (s : NBTState) : Res Tag :=
  readCompoundEntries fuel [] s

/-- Fuel supplied to the recursive readers by read.  Each level of the
mutual recursion consumes one unit; the depth of any execution of the C++
is bounded by the compound-entry chain (at most one per input byte), the
structural nesting (at most one per input byte) and a single End-kind
list tail of fewer than 2^64 iterations, so this bound is never reached. -/
def fuelFor (b : List Nat) : Nat := 2 ^ 70 + 64 * (b.length + 1)

/-- NBTFile::read: the first ID (with value_or(ID::END) when absent) must
be COMPOUND, then a name string and a compound body are read, and the
result is a fresh CompoundTag with the single entry name -> body. -/
def read (b : List Nat) : Res Tag :=
  match readID ⟨b, 0⟩ with
  | .nofuel => .nofuel
  | .oob => .oob
  | .fail => .fail
  | .ok id s1 =>
    if id = 10 then
      (readString s1).bind fun name s2 =>
        (readTagCompound (fuelFor b) s2).bind fun tag s3 =>
          .ok (.compound (mapEmplace name tag [])) s3
    else .fail

theorem bytesLt_irrefl (k : List Nat) : bytesLt k k = false := by
  induction k with
  | nil => rfl
  | cons a as ih => simp [bytesLt, ih]

theorem mapEmplace_mapEmplace_same (k : List Nat) (v w : Tag)
    (l : List (List Nat × Tag)) :
    mapEmplace k v (mapEmplace k w l) = mapEmplace k w l := by
  induction l with
  | nil => simp [mapEmplace, bytesLt_irrefl]
  | cons p rest ih =>
    obtain ⟨k1, v1⟩ := p
    by_cases h1 : bytesLt k k1 = true
    · simp [mapEmplace, h1, bytesLt_irrefl]
    · by_cases h2 : bytesLt k1 k = true
      · simp [mapEmplace, h1, h2, ih]
      · simp [mapEmplace, h1, h2]

/-- C1: on the input that encodes a root Compound with empty name holding a
single List entry named l with the two Byte elements 5 and 7 followed by the
End terminator, read does not return the expected tree: the missing break in
the ID::LIST case falls through into the ID::COMPOUND case, which decodes an
extra unnamed Compound that consumes the End terminator, after which the
entry loop reads past the end of the buffer (an out-of-range access). -/
theorem read_list_entry_input_overruns :
    read [10, 0, 0, 9, 0, 1, 108, 1, 0, 0, 0, 2, 5, 7, 0] = Res.oob := rfl

/-- C2: at a position strictly past the buffer length readI8 fails as the
claim states, but at a position exactly equal to the buffer length the
source guard pos > size passes and the byte data[pos] one past the end is
indexed, an out-of-range access rather than a clean failure. -/
theorem readI8_boundary_behavior :
    (∀ d : List Nat, readI8 ⟨d, d.length⟩ = Res.oob) ∧
    (∀ (d : List Nat) (k : Nat), readI8 ⟨d, d.length + k + 1⟩ = Res.fail) := by
  constructor
  · intro d
    simp [readI8]
  · intro d k
    simp [readI8]
    omega

/-- C3 counterexample: a List header declaring element kind End with count 1
decodes successfully (to a one-element list of End tags), both at the list
decoder itself and as part of a whole-input decode, refuting the claim that
such an input makes the decode fail. -/
theorem end_list_positive_count_accepted :
    readTagList 9 ⟨[0, 0, 0, 0, 1], 0⟩ =
      Res.ok (Tag.list [Tag.end_]) ⟨[0, 0, 0, 0, 1], 5⟩ ∧
    read [10, 0, 0, 9, 0, 1, 101, 0, 0, 0, 0, 1, 0, 0] =
      Res.ok
        (Tag.compound [([], Tag.compound [([], Tag.compound []),
          ([101], Tag.list [Tag.end_])])])
        ⟨[10, 0, 0, 9, 0, 1, 101, 0, 0, 0, 0, 1, 0, 0], 14⟩ :=
  ⟨rfl, rfl⟩

/-- C4: a negative declared string length is not rejected as the claim
states: the bound check adds the int16 length to the size_t position, so
the value wraps mod 2^64 and the check passes, after which the length is
used as a size in data.subspan, an out-of-range access.  The input is a
root Compound with empty name holding a String entry named s whose
declared length is -1 (bytes FF FF). -/
theorem read_negative_string_length_oob :
    read [10, 0, 0, 8, 0, 1, 115, 255, 255] = Res.oob := rfl

/-- C8: multi-byte integer reads reassemble bytes most-significant-first as
twos-complement values: readI32 decodes 00 00 00 01 to 1 and FF FF FF FF
to -1. -/
theorem readI32_big_endian_examples :
    readI32 ⟨[0, 0, 0, 1], 0⟩ = Res.ok 1 ⟨[0, 0, 0, 1], 4⟩ ∧
    readI32 ⟨[255, 255, 255, 255], 0⟩ = Res.ok (-1) ⟨[255, 255, 255, 255], 4⟩ :=
  ⟨rfl, rfl⟩

/-- C10: a compound body with two well-formed entries of the same name
decodes successfully, consuming both payloads (the final position is the
whole buffer), and maps the name to the first value: the input holds Byte
entries a=5 then a=7 and the result keeps a=5.  In general a second
emplace with an equal key never replaces an existing binding. -/
theorem duplicate_name_first_wins :
    read [10, 0, 0, 1, 0, 1, 97, 5, 1, 0, 1, 97, 7, 0] =
      Res.ok (Tag.compound [([], Tag.compound [([97], Tag.byte 5)])])
        ⟨[10, 0, 0, 1, 0, 1, 97, 5, 1, 0, 1, 97, 7, 0], 14⟩ ∧
    (∀ (k : List Nat) (v w : Tag) (l : List (List Nat × Tag)),
      mapEmplace k v (mapEmplace k w l) = mapEmplace k w l) :=
  ⟨rfl, fun k v w l => mapEmplace_mapEmplace_same k v w l⟩

theorem Res.bind_eq_ok {α β : Type} {x : Res α} {f : α → NBTState → Res β}
    {b : β} {s2 : NBTState} (h : x.bind f = .ok b s2) :
    ∃ a s1, x = .ok a s1 ∧ f a s1 = .ok b s2 := by
  cases x with
  | ok a s1 => exact ⟨a, s1, rfl, h⟩
  | fail => simp [Res.bind] at h
  | oob => simp [Res.bind] at h
  | nofuel => simp [Res.bind] at h

theorem readListElems_end_kind (n : Nat) :
    ∀ (fuel : Nat) (s : NBTState), n + 1 ≤ fuel →
      readListElems fuel 0 n s = .ok (List.replicate n Tag.end_) s := by
  induction n with
  | zero =>
    intro fuel s hf
    match fuel, hf with
    | fuel + 1, _ => simp [readListElems]
  | succ n ih =>
    intro fuel s hf
    match fuel, hf with
    | fuel + 1, _ =>
      have hf1 : n + 1 ≤ fuel := by omega
      have hp : readTagPayload fuel 0 s = .ok Tag.end_ s := by
        match fuel, hf1 with
        | fuel + 1, _ => simp [readTagPayload]
      simp [readListElems, hp, ih fuel s hf1, List.replicate_succ]

/-- C3 amended: a List header declaring element kind End together with a
count n is not rejected: since readTag of the End kind succeeds consuming
nothing, the list decodes successfully to n End tags, leaving the cursor
right after the count field. -/
theorem readTagList_end_kind_replicates (fuel : Nat) (s s1 s2 : NBTState)
    (len : Int) (h0 : readID s = .ok 0 s1) (h1 : readI32 s1 = .ok len s2)
    (hf : intToU64 len + 2 ≤ fuel) :
    readTagList fuel s = .ok (Tag.list (List.replicate (intToU64 len) Tag.end_)) s2 := by
  match fuel, hf with
  | fuel + 1, _ =>
    have hf1 : intToU64 len + 1 ≤ fuel := by omega
    simp [readTagList, h0, Res.bind, h1, readListElems_end_kind (intToU64 len) fuel s2 hf1]

theorem readTagList_end_kind_replicates_witness :
    readTagList 9 ⟨[0, 0, 0, 0, 1], 0⟩ =
      Res.ok (Tag.list (List.replicate (intToU64 1) Tag.end_)) ⟨[0, 0, 0, 0, 1], 5⟩ :=
  readTagList_end_kind_replicates 9 ⟨[0, 0, 0, 0, 1], 0⟩ ⟨[0, 0, 0, 0, 1], 1⟩
    ⟨[0, 0, 0, 0, 1], 5⟩ 1 rfl rfl (by decide)

theorem read_ok_elim {b : List Nat} {t : Tag} {s3 : NBTState} (h : read b = .ok t s3) :
    ∃ (s1 : NBTState) (name : List Nat) (s2 : NBTState) (body : Tag),
      readID ⟨b, 0⟩ = .ok 10 s1 ∧ readString s1 = .ok name s2 ∧
      readTagCompound (fuelFor b) s2 = .ok body s3 ∧
      t = Tag.compound [(name, body)] := by
  cases hid : readID ⟨b, 0⟩ with
  | ok id s1 =>
    simp only [read, hid] at h
    by_cases h10 : id = 10
    · subst h10
      rw [if_pos rfl] at h
      obtain ⟨name, s2, hname, h⟩ := Res.bind_eq_ok h
      obtain ⟨body, s3x, hbody, h⟩ := Res.bind_eq_ok h
      cases h
      exact ⟨s1, name, s2, body, rfl, hname, hbody, rfl⟩
    · rw [if_neg h10] at h
      exact Res.noConfusion h
  | fail => simp only [read, hid] at h; exact Res.noConfusion h
  | oob => simp only [read, hid] at h; exact Res.noConfusion h
  | nofuel => simp only [read, hid] at h; exact Res.noConfusion h

/-- C5: read succeeds only on an input whose first kind byte is 10 followed
by a readable name and a well-formed compound body, and on success the
result is a Compound with the single entry name -> body; whenever a first
byte is present and differs from 10, read fails.  The claim that read
fails on every other input is however wrong: on the truncated input
0A 00 00 (valid root header, body missing its End) the off-by-one guard of
readI8 lets through a read one past the end of the buffer, so read performs an
out-of-range access instead of failing. -/
theorem read_root_contract :
    read [10, 0, 0] = Res.oob ∧
    (∀ (b : List Nat) (id : Int) (s1 : NBTState),
      readID ⟨b, 0⟩ = .ok id s1 → id ≠ 10 → read b = .fail) ∧
    (∀ (b : List Nat) (t : Tag) (s3 : NBTState), read b = .ok t s3 →
      ∃ (s1 : NBTState) (name : List Nat) (s2 : NBTState) (body : Tag),
        readID ⟨b, 0⟩ = .ok 10 s1 ∧ readString s1 = .ok name s2 ∧
        readTagCompound (fuelFor b) s2 = .ok body s3 ∧
        t = Tag.compound [(name, body)]) := by
  refine ⟨rfl, ?_, ?_⟩
  · intro b id s1 h hne
    simp [read, h, hne]
  · intro b t s3 h
    exact read_ok_elim h

theorem read_root_contract_witness : read [5] = Res.fail :=
  read_root_contract.2.1 [5] 5 ⟨[5], 1⟩ rfl (by decide)

/-- C6: a kind byte outside 0..12 always hits a default branch: the list
dispatch fails immediately, the root check fails on anything other than
10, and the compound entry loop fails after reading the entry name.  The
claim that the entire decode always fails on an invalid kind is however
wrong in the compound position, because the name string is read before
the kind is validated: on input 0A 00 00 0D FF FF the invalid kind 13 is
followed by a name whose declared length -1 drives readString into an
out-of-range subspan, so the decode ends in an out-of-range access rather
than a failure. -/
theorem invalid_kind_behavior :
    read [10, 0, 0, 13, 255, 255] = Res.oob ∧
    (∀ (fuel : Nat) (id : Int) (s s1 : NBTState), readID s = .ok id s1 →
      ¬(0 ≤ id ∧ id ≤ 12) → 0 < fuel → readTagList fuel s = .fail) ∧
    (∀ (b : List Nat) (id : Int) (s1 : NBTState), readID ⟨b, 0⟩ = .ok id s1 →
      ¬(0 ≤ id ∧ id ≤ 12) → read b = .fail) ∧
    (∀ (fuel : Nat) (id : Int) (acc : List (List Nat × Tag)) (s s1 : NBTState)
      (name : List Nat) (s2 : NBTState), readID s = .ok id s1 →
      ¬(0 ≤ id ∧ id ≤ 12) → readString s1 = .ok name s2 → 0 < fuel →
      readCompoundEntries fuel acc s = .fail) := by
  refine ⟨rfl, ?_, ?_, ?_⟩
  · intro fuel id s s1 h hinv hf
    match fuel, hf with
    | fuel + 1, _ => simp [readTagList, h, Res.bind, hinv]
  · intro b id s1 h hinv
    have h10 : id ≠ 10 := by omega
    simp [read, h, h10]
  · intro fuel id acc s s1 name s2 h hinv hname hf
    match fuel, hf with
    | fuel + 1, _ =>
      have h0 : id ≠ 0 := by omega
      have h9 : id ≠ 9 := by omega
      have h112 : ¬(1 ≤ id ∧ id ≤ 12) := by omega
      simp [readCompoundEntries, h, Res.bind, h0, hname, h9, h112]

theorem invalid_kind_behavior_witness :
    readTagList 1 ⟨[13], 0⟩ = Res.fail ∧ read [13] = Res.fail ∧
    readCompoundEntries 1 [] ⟨[13, 0, 0], 0⟩ = Res.fail :=
  ⟨invalid_kind_behavior.2.1 1 13 ⟨[13], 0⟩ ⟨[13], 1⟩ rfl (by decide) (by decide),
   invalid_kind_behavior.2.2.1 [13] 13 ⟨[13], 1⟩ rfl (by decide),
   invalid_kind_behavior.2.2.2 1 13 [] ⟨[13, 0, 0], 0⟩ ⟨[13, 0, 0], 1⟩ []
     ⟨[13, 0, 0], 3⟩ rfl (by decide) rfl (by decide)⟩

/-- The first key of the entry list is above k (true for the empty list);
together with keysSorted this is the std::map strict-weak-order shape. -/
def ltHead (k : List Nat) : List (List Nat × Tag) → Bool
  | [] => true
  | (k1, _) :: _ => bytesLt k k1

/-- The keys of the association list are strictly increasing. -/
def keysSorted : List (List Nat × Tag) → Bool
  | [] => true
  | (k1, _) :: rest => ltHead k1 rest && keysSorted rest

mutual

/-- Every compound stored anywhere inside the tag keeps its entries
strictly sorted by key. -/
def tagOrdered : Tag → Bool
  | .list ts => tagsOrdered ts
  | .compound es => keysSorted es && entriesOrdered es
  | _ => true

def tagsOrdered : List Tag → Bool
  | [] => true
  | t :: ts => tagOrdered t && tagsOrdered ts

def entriesOrdered : List (List Nat × Tag) → Bool
  | [] => true
  | (_, v) :: es => tagOrdered v && entriesOrdered es

end

theorem ltHead_mapEmplace (k0 k : List Nat) (v : Tag) (es : List (List Nat × Tag))
    (h1 : ltHead k0 es = true) (h2 : bytesLt k0 k = true) :
    ltHead k0 (mapEmplace k v es) = true := by
  cases es with
  | nil => simpa [mapEmplace, ltHead]
  | cons p rest =>
    obtain ⟨k1, v1⟩ := p
    by_cases hlt : bytesLt k k1 = true
    · simpa [mapEmplace, hlt, ltHead]
    · by_cases hgt : bytesLt k1 k = true
      · simpa [mapEmplace, hlt, hgt, ltHead] using h1
      · simpa [mapEmplace, hlt, hgt, ltHead] using h1

theorem keysSorted_mapEmplace (k : List Nat) (v : Tag) (es : List (List Nat × Tag))
    (h : keysSorted es = true) : keysSorted (mapEmplace k v es) = true := by
  induction es with
  | nil => simp [mapEmplace, keysSorted, ltHead]
  | cons p rest ih =>
    obtain ⟨k1, v1⟩ := p
    rw [keysSorted, Bool.and_eq_true] at h
    obtain ⟨hh, hrest⟩ := h
    by_cases hlt : bytesLt k k1 = true
    · rw [mapEmplace, if_pos hlt, keysSorted, Bool.and_eq_true]
      refine ⟨by rw [ltHead]; exact hlt, ?_⟩
      rw [keysSorted, Bool.and_eq_true]
      exact ⟨hh, hrest⟩
    · by_cases hgt : bytesLt k1 k = true
      · rw [mapEmplace, if_neg hlt, if_pos hgt, keysSorted, Bool.and_eq_true]
        exact ⟨ltHead_mapEmplace k1 k v rest hh hgt, ih hrest⟩
      · rw [mapEmplace, if_neg hlt, if_neg hgt, keysSorted, Bool.and_eq_true]
        exact ⟨hh, hrest⟩

theorem entriesOrdered_mapEmplace (k : List Nat) (v : Tag)
    (es : List (List Nat × Tag)) (hv : tagOrdered v = true)
    (h : entriesOrdered es = true) : entriesOrdered (mapEmplace k v es) = true := by
  induction es with
  | nil => simp [mapEmplace, entriesOrdered, hv]
  | cons p rest ih =>
    obtain ⟨k1, v1⟩ := p
    rw [entriesOrdered, Bool.and_eq_true] at h
    obtain ⟨h1, hrest⟩ := h
    by_cases hlt : bytesLt k k1 = true
    · simp [mapEmplace, hlt, entriesOrdered, hv, h1, hrest]
    · by_cases hgt : bytesLt k1 k = true
      · simp [mapEmplace, hlt, hgt, entriesOrdered, h1, ih hrest]
      · simp [mapEmplace, hlt, hgt, entriesOrdered, h1, hrest]

set_option maxHeartbeats 2000000 in
/-- Every tag produced by any of the recursive readers keeps all of its
compounds sorted; the compound loop additionally preserves sortedness of
its accumulator. -/
theorem readersOrdered (fuel : Nat) :
    (∀ (kind : Int) (s : NBTState) (t : Tag) (s2 : NBTState),
      readTagPayload fuel kind s = .ok t s2 → tagOrdered t = true) ∧
    (∀ (s : NBTState) (t : Tag) (s2 : NBTState),
      readTagList fuel s = .ok t s2 → tagOrdered t = true) ∧
    (∀ (kind : Int) (n : Nat) (s : NBTState) (ts : List Tag) (s2 : NBTState),
      readListElems fuel kind n s = .ok ts s2 → tagsOrdered ts = true) ∧
    (∀ (acc : List (List Nat × Tag)) (s : NBTState) (t : Tag) (s2 : NBTState),
      keysSorted acc = true → entriesOrdered acc = true →
      readCompoundEntries fuel acc s = .ok t s2 → tagOrdered t = true) := by
  induction fuel with
  | zero =>
    refine ⟨?_, ?_, ?_, ?_⟩
    · intro kind s t s2 h; rw [readTagPayload] at h; exact Res.noConfusion h
    · intro s t s2 h; rw [readTagList] at h; exact Res.noConfusion h
    · intro kind n s ts s2 h; rw [readListElems] at h; exact Res.noConfusion h
    · intro acc s t s2 _ _ h; rw [readCompoundEntries] at h; exact Res.noConfusion h
  | succ fuel ih =>
    obtain ⟨ihP, ihL, ihE, ihC⟩ := ih
    refine ⟨?_, ?_, ?_, ?_⟩
    · intro kind s t s2 h
      rw [readTagPayload] at h
      by_cases k0 : kind = 0
      · rw [if_pos k0] at h; cases h; rfl
      · rw [if_neg k0] at h
        by_cases k1 : kind = 1
        · rw [if_pos k1] at h
          obtain ⟨v, s1, _, h⟩ := Res.bind_eq_ok h
          cases h; rfl
        · rw [if_neg k1] at h
          by_cases k2 : kind = 2
          · rw [if_pos k2] at h
            obtain ⟨v, s1, _, h⟩ := Res.bind_eq_ok h
            cases h; rfl
          · rw [if_neg k2] at h
            by_cases k3 : kind = 3
            · rw [if_pos k3] at h
              obtain ⟨v, s1, _, h⟩ := Res.bind_eq_ok h
              cases h; rfl
            · rw [if_neg k3] at h
              by_cases k4 : kind = 4
              · rw [if_pos k4] at h
                obtain ⟨v, s1, _, h⟩ := Res.bind_eq_ok h
                cases h; rfl
              · rw [if_neg k4] at h
                by_cases k5 : kind = 5
                · rw [if_pos k5] at h
                  obtain ⟨v, s1, _, h⟩ := Res.bind_eq_ok h
                  cases h; rfl
                · rw [if_neg k5] at h
                  by_cases k6 : kind = 6
                  · rw [if_pos k6] at h
                    obtain ⟨v, s1, _, h⟩ := Res.bind_eq_ok h
                    cases h; rfl
                  · rw [if_neg k6] at h
                    by_cases k7 : kind = 7
                    · rw [if_pos k7] at h
                      obtain ⟨len, s1, _, h⟩ := Res.bind_eq_ok h
                      obtain ⟨vs, s2x, _, h⟩ := Res.bind_eq_ok h
                      cases h; rfl
                    · rw [if_neg k7] at h
                      by_cases k8 : kind = 8
                      · rw [if_pos k8] at h
                        obtain ⟨v, s1, _, h⟩ := Res.bind_eq_ok h
                        cases h; rfl
                      · rw [if_neg k8] at h
                        by_cases k9 : kind = 9
                        · rw [if_pos k9] at h
                          exact ihL _ _ _ h
                        · rw [if_neg k9] at h
                          by_cases k10 : kind = 10
                          · rw [if_pos k10] at h
                            exact ihC [] _ _ _ rfl rfl h
                          · rw [if_neg k10] at h
                            by_cases k11 : kind = 11
                            · rw [if_pos k11] at h
                              obtain ⟨len, s1, _, h⟩ := Res.bind_eq_ok h
                              obtain ⟨vs, s2x, _, h⟩ := Res.bind_eq_ok h
                              cases h; rfl
                            · rw [if_neg k11] at h
                              by_cases k12 : kind = 12
                              · rw [if_pos k12] at h
                                obtain ⟨len, s1, _, h⟩ := Res.bind_eq_ok h
                                obtain ⟨vs, s2x, _, h⟩ := Res.bind_eq_ok h
                                cases h; rfl
                              · rw [if_neg k12] at h
                                exact Res.noConfusion h
    · intro s t s2 h
      rw [readTagList] at h
      obtain ⟨id, s1, _, h⟩ := Res.bind_eq_ok h
      by_cases hv : 0 ≤ id ∧ id ≤ 12
      · rw [if_pos hv] at h
        obtain ⟨len, s2x, _, h⟩ := Res.bind_eq_ok h
        obtain ⟨ts, s3, hts, h⟩ := Res.bind_eq_ok h
        cases h
        exact ihE _ _ _ _ _ hts
      · rw [if_neg hv] at h
        exact Res.noConfusion h
    · intro kind n s ts s2 h
      cases n with
      | zero =>
        rw [readListElems] at h
        cases h
        rfl
      | succ n =>
        rw [readListElems] at h
        obtain ⟨t1, s1, ht1, h⟩ := Res.bind_eq_ok h
        obtain ⟨ts1, s2x, hts1, h⟩ := Res.bind_eq_ok h
        cases h
        have h1 := ihP _ _ _ _ ht1
        have h2 := ihE _ _ _ _ _ hts1
        simp [tagsOrdered, h1, h2]
    · intro acc s t s2 hks hes h
      rw [readCompoundEntries] at h
      obtain ⟨id, s1, _, h⟩ := Res.bind_eq_ok h
      by_cases h0 : id = 0
      · rw [if_pos h0] at h
        cases h
        simp [tagOrdered, hks, hes]
      · rw [if_neg h0] at h
        obtain ⟨name, s2x, _, h⟩ := Res.bind_eq_ok h
        by_cases h9 : id = 9
        · rw [if_pos h9] at h
          obtain ⟨lv, s3, hlv, h⟩ := Res.bind_eq_ok h
          obtain ⟨cv, s4, hcv, h⟩ := Res.bind_eq_ok h
          have hlvO := ihL _ _ _ hlv
          have hcvO := ihC [] _ _ _ rfl rfl hcv
          exact ihC _ _ _ _
            (keysSorted_mapEmplace _ _ _ (keysSorted_mapEmplace _ _ _ hks))
            (entriesOrdered_mapEmplace _ _ _ hcvO
              (entriesOrdered_mapEmplace _ _ _ hlvO hes)) h
        · rw [if_neg h9] at h
          by_cases h112 : 1 ≤ id ∧ id ≤ 12
          · rw [if_pos h112] at h
            obtain ⟨v, s3, hv, h⟩ := Res.bind_eq_ok h
            have hvO := ihP _ _ _ _ hv
            exact ihC _ _ _ _ (keysSorted_mapEmplace _ _ _ hks)
              (entriesOrdered_mapEmplace _ _ _ hvO hes) h
          · rw [if_neg h112] at h
            exact Res.noConfusion h

/-- C7: every Compound produced at any nesting depth by a successful
decode has its entries strictly sorted lexicographically by key, the
std::map iteration order, rather than wire declaration order. -/
theorem read_ok_tagOrdered (b : List Nat) (t : Tag) (s2 : NBTState)
    (h : read b = .ok t s2) : tagOrdered t = true := by
  obtain ⟨s1, name, s2x, body, _, _, hbody, ht⟩ := read_ok_elim h
  have hb : tagOrdered body = true :=
    (readersOrdered (fuelFor b)).2.2.2 [] s2x body s2 rfl rfl hbody
  subst ht
  simp [tagOrdered, keysSorted, entriesOrdered, ltHead, hb]

theorem read_ok_tagOrdered_witness :
    tagOrdered (Tag.compound [([], Tag.compound [([120], Tag.int 42)])]) = true :=
  read_ok_tagOrdered [10, 0, 0, 3, 0, 1, 120, 0, 0, 0, 42, 0]
    (Tag.compound [([], Tag.compound [([120], Tag.int 42)])])
    ⟨[10, 0, 0, 3, 0, 1, 120, 0, 0, 0, 42, 0], 12⟩ rfl

theorem getD_append_lt {b e : List Nat} {i : Nat} (h : i < b.length) :
    (b ++ e).getD i 0 = b.getD i 0 := by
  simp [List.getD, List.getElem?_append, h]

theorem readI8_mono : ∀ (b e : List Nat) (p : Nat) (v : Int) (s2 : NBTState),
    readI8 ⟨b, p⟩ = .ok v s2 →
    readI8 ⟨b ++ e, p⟩ = .ok v ⟨b ++ e, s2.pos⟩ ∧ s2.data = b ∧ s2.pos ≤ b.length := by
  intro b e p v s2 h
  replace h :
      (if p > b.length then Res.fail
        else match b[p]? with
          | some byte => Res.ok (toSigned 8 byte) ⟨b, p + 1⟩
          | none => Res.oob) = Res.ok v s2 := h
  by_cases hp : p > b.length
  · rw [if_pos hp] at h
    exact Res.noConfusion h
  · rw [if_neg hp] at h
    cases hb : b[p]? with
    | none => rw [hb] at h; exact Res.noConfusion h
    | some byte =>
      rw [hb] at h
      cases h
      have hlt : p < b.length := by
        by_contra hc
        rw [List.getElem?_eq_none (by omega)] at hb
        exact Option.noConfusion hb
      have hlen : ¬ p > (b ++ e).length := by
        rw [List.length_append]; omega
      have hbe : (b ++ e)[p]? = some byte := by
        rw [List.getElem?_append, if_pos hlt, hb]
      refine ⟨?_, rfl, by show p + 1 ≤ b.length; omega⟩
      show (if p > (b ++ e).length then Res.fail
        else match (b ++ e)[p]? with
          | some byte => Res.ok (toSigned 8 byte) ⟨b ++ e, p + 1⟩
          | none => Res.oob) = Res.ok (toSigned 8 byte) ⟨b ++ e, p + 1⟩
      rw [if_neg hlen, hbe]

theorem readI16_mono : ∀ (b e : List Nat) (p : Nat) (v : Int) (s2 : NBTState),
    readI16 ⟨b, p⟩ = .ok v s2 →
    readI16 ⟨b ++ e, p⟩ = .ok v ⟨b ++ e, s2.pos⟩ ∧ s2.data = b ∧ s2.pos ≤ b.length := by
  intro b e p v s2 h
  replace h :
      (if p + 2 > b.length then Res.fail
        else Res.ok (toSigned 16 (b.getD p 0 * 256 + b.getD (p + 1) 0)) ⟨b, p + 2⟩) =
        Res.ok v s2 := h
  by_cases hp : p + 2 > b.length
  · rw [if_pos hp] at h
    exact Res.noConfusion h
  · rw [if_neg hp] at h
    cases h
    have hlen : ¬ p + 2 > (b ++ e).length := by
      rw [List.length_append]; omega
    have hg0 : (b ++ e).getD p 0 = b.getD p 0 := getD_append_lt (by omega)
    have hg1 : (b ++ e).getD (p + 1) 0 = b.getD (p + 1) 0 := getD_append_lt (by omega)
    refine ⟨?_, rfl, by show p + 2 ≤ b.length; omega⟩
    show (if p + 2 > (b ++ e).length then Res.fail
      else Res.ok (toSigned 16 ((b ++ e).getD p 0 * 256 + (b ++ e).getD (p + 1) 0))
        ⟨b ++ e, p + 2⟩) =
      Res.ok (toSigned 16 (b.getD p 0 * 256 + b.getD (p + 1) 0)) ⟨b ++ e, p + 2⟩
    rw [if_neg hlen, hg0, hg1]

theorem readI32_mono : ∀ (b e : List Nat) (p : Nat) (v : Int) (s2 : NBTState),
    readI32 ⟨b, p⟩ = .ok v s2 →
    readI32 ⟨b ++ e, p⟩ = .ok v ⟨b ++ e, s2.pos⟩ ∧ s2.data = b ∧ s2.pos ≤ b.length := by
  intro b e p v s2 h
  replace h :
      (if p + 4 > b.length then Res.fail
        else Res.ok (toSigned 32 (((b.getD p 0 * 256 + b.getD (p + 1) 0) * 256 +
          b.getD (p + 2) 0) * 256 + b.getD (p + 3) 0)) ⟨b, p + 4⟩) = Res.ok v s2 := h
  by_cases hp : p + 4 > b.length
  · rw [if_pos hp] at h
    exact Res.noConfusion h
  · rw [if_neg hp] at h
    cases h
    have hlen : ¬ p + 4 > (b ++ e).length := by
      rw [List.length_append]; omega
    have hg0 : (b ++ e).getD p 0 = b.getD p 0 := getD_append_lt (by omega)
    have hg1 : (b ++ e).getD (p + 1) 0 = b.getD (p + 1) 0 := getD_append_lt (by omega)
    have hg2 : (b ++ e).getD (p + 2) 0 = b.getD (p + 2) 0 := getD_append_lt (by omega)
    have hg3 : (b ++ e).getD (p + 3) 0 = b.getD (p + 3) 0 := getD_append_lt (by omega)
    refine ⟨?_, rfl, by show p + 4 ≤ b.length; omega⟩
    show (if p + 4 > (b ++ e).length then Res.fail
      else Res.ok (toSigned 32 ((((b ++ e).getD p 0 * 256 + (b ++ e).getD (p + 1) 0) * 256 +
        (b ++ e).getD (p + 2) 0) * 256 + (b ++ e).getD (p + 3) 0)) ⟨b ++ e, p + 4⟩) =
      Res.ok (toSigned 32 (((b.getD p 0 * 256 + b.getD (p + 1) 0) * 256 +
        b.getD (p + 2) 0) * 256 + b.getD (p + 3) 0)) ⟨b ++ e, p + 4⟩
    rw [if_neg hlen, hg0, hg1, hg2, hg3]

theorem readI64_mono : ∀ (b e : List Nat) (p : Nat) (v : Int) (s2 : NBTState),
    readI64 ⟨b, p⟩ = .ok v s2 →
    readI64 ⟨b ++ e, p⟩ = .ok v ⟨b ++ e, s2.pos⟩ ∧ s2.data = b ∧ s2.pos ≤ b.length := by
  intro b e p v s2 h
  replace h :
      (if p + 8 > b.length then Res.fail
        else Res.ok (toSigned 64 (((((((b.getD p 0 * 256 + b.getD (p + 1) 0) * 256 +
          b.getD (p + 2) 0) * 256 + b.getD (p + 3) 0) * 256 + b.getD (p + 4) 0) * 256 +
          b.getD (p + 5) 0) * 256 + b.getD (p + 6) 0) * 256 + b.getD (p + 7) 0))
          ⟨b, p + 8⟩) = Res.ok v s2 := h
  by_cases hp : p + 8 > b.length
  · rw [if_pos hp] at h
    exact Res.noConfusion h
  · rw [if_neg hp] at h
    cases h
    have hlen : ¬ p + 8 > (b ++ e).length := by
      rw [List.length_append]; omega
    have hg0 : (b ++ e).getD p 0 = b.getD p 0 := getD_append_lt (by omega)
    have hg1 : (b ++ e).getD (p + 1) 0 = b.getD (p + 1) 0 := getD_append_lt (by omega)
    have hg2 : (b ++ e).getD (p + 2) 0 = b.getD (p + 2) 0 := getD_append_lt (by omega)
    have hg3 : (b ++ e).getD (p + 3) 0 = b.getD (p + 3) 0 := getD_append_lt (by omega)
    have hg4 : (b ++ e).getD (p + 4) 0 = b.getD (p + 4) 0 := getD_append_lt (by omega)
    have hg5 : (b ++ e).getD (p + 5) 0 = b.getD (p + 5) 0 := getD_append_lt (by omega)
    have hg6 : (b ++ e).getD (p + 6) 0 = b.getD (p + 6) 0 := getD_append_lt (by omega)
    have hg7 : (b ++ e).getD (p + 7) 0 = b.getD (p + 7) 0 := getD_append_lt (by omega)
    refine ⟨?_, rfl, by show p + 8 ≤ b.length; omega⟩
    show (if p + 8 > (b ++ e).length then Res.fail
      else Res.ok (toSigned 64 ((((((((b ++ e).getD p 0 * 256 + (b ++ e).getD (p + 1) 0) * 256 +
        (b ++ e).getD (p + 2) 0) * 256 + (b ++ e).getD (p + 3) 0) * 256 +
        (b ++ e).getD (p + 4) 0) * 256 + (b ++ e).getD (p + 5) 0) * 256 +
        (b ++ e).getD (p + 6) 0) * 256 + (b ++ e).getD (p + 7) 0)) ⟨b ++ e, p + 8⟩) =
      Res.ok (toSigned 64 (((((((b.getD p 0 * 256 + b.getD (p + 1) 0) * 256 +
        b.getD (p + 2) 0) * 256 + b.getD (p + 3) 0) * 256 + b.getD (p + 4) 0) * 256 +
        b.getD (p + 5) 0) * 256 + b.getD (p + 6) 0) * 256 + b.getD (p + 7) 0)) ⟨b ++ e, p + 8⟩
    rw [if_neg hlen, hg0, hg1, hg2, hg3, hg4, hg5, hg6, hg7]

theorem readF32_mono : ∀ (b e : List Nat) (p : Nat) (v : Int) (s2 : NBTState),
    readF32 ⟨b, p⟩ = .ok v s2 →
    readF32 ⟨b ++ e, p⟩ = .ok v ⟨b ++ e, s2.pos⟩ ∧ s2.data = b ∧ s2.pos ≤ b.length :=
  readI32_mono

theorem readF64_mono : ∀ (b e : List Nat) (p : Nat) (v : Int) (s2 : NBTState),
    readF64 ⟨b, p⟩ = .ok v s2 →
    readF64 ⟨b ++ e, p⟩ = .ok v ⟨b ++ e, s2.pos⟩ ∧ s2.data = b ∧ s2.pos ≤ b.length :=
  readI64_mono

theorem readString_mono : ∀ (b e : List Nat) (p : Nat) (v : List Nat) (s2 : NBTState),
    readString ⟨b, p⟩ = .ok v s2 →
    readString ⟨b ++ e, p⟩ = .ok v ⟨b ++ e, s2.pos⟩ ∧ s2.data = b ∧ s2.pos ≤ b.length := by
  intro b e p v s2 h
  rw [readString] at h
  obtain ⟨size, s1, h16, hbody⟩ := Res.bind_eq_ok h
  clear h
  obtain ⟨d1, p1⟩ := s1
  obtain ⟨h16e, hd, hple⟩ := readI16_mono b e p size ⟨d1, p1⟩ h16
  have hd1 : d1 = b := hd
  subst hd1
  have hple1 : p1 ≤ d1.length := hple
  have h16e1 : readI16 ⟨d1 ++ e, p⟩ = .ok size ⟨d1 ++ e, p1⟩ := h16e
  replace hbody :
      (if (p1 + intToU64 size) % 2 ^ 64 > d1.length then Res.fail
        else if intToU64 size > d1.length - p1 then Res.oob
        else Res.ok ((d1.drop p1).take (intToU64 size)) ⟨d1, p1 + intToU64 size⟩) =
        Res.ok v s2 := hbody
  by_cases hc1 : (p1 + intToU64 size) % 2 ^ 64 > d1.length
  · rw [if_pos hc1] at hbody
    exact Res.noConfusion hbody
  · rw [if_neg hc1] at hbody
    by_cases hc2 : intToU64 size > d1.length - p1
    · rw [if_pos hc2] at hbody
      exact Res.noConfusion hbody
    · rw [if_neg hc2] at hbody
      cases hbody
      have hc1e : ¬ (p1 + intToU64 size) % 2 ^ 64 > (d1 ++ e).length := by
        rw [List.length_append]; omega
      have hc2e : ¬ intToU64 size > (d1 ++ e).length - p1 := by
        rw [List.length_append]; omega
      have hbytes : ((d1 ++ e).drop p1).take (intToU64 size) =
          (d1.drop p1).take (intToU64 size) := by
        rw [List.drop_append_of_le_length hple1,
          List.take_append_of_le_length (by rw [List.length_drop]; omega)]
      refine ⟨?_, rfl, by show p1 + intToU64 size ≤ d1.length; omega⟩
      rw [readString, h16e1, Res.bind_ok]
      show (if (p1 + intToU64 size) % 2 ^ 64 > (d1 ++ e).length then Res.fail
        else if intToU64 size > (d1 ++ e).length - p1 then Res.oob
        else Res.ok (((d1 ++ e).drop p1).take (intToU64 size))
          ⟨d1 ++ e, p1 + intToU64 size⟩) =
        Res.ok ((d1.drop p1).take (intToU64 size)) ⟨d1 ++ e, p1 + intToU64 size⟩
      rw [if_neg hc1e, if_neg hc2e, hbytes]

theorem readIntElems_mono (rd : NBTState → Res Int)
    (rdMono : ∀ (b e : List Nat) (p : Nat) (v : Int) (s2 : NBTState),
      rd ⟨b, p⟩ = .ok v s2 →
      rd ⟨b ++ e, p⟩ = .ok v ⟨b ++ e, s2.pos⟩ ∧ s2.data = b ∧ s2.pos ≤ b.length) :
    ∀ (n : Nat) (b e : List Nat) (p : Nat) (vs : List Int) (s2 : NBTState),
      readIntElems rd n ⟨b, p⟩ = .ok vs s2 →
      readIntElems rd n ⟨b ++ e, p⟩ = .ok vs ⟨b ++ e, s2.pos⟩ ∧ s2.data = b := by
  intro n
  induction n with
  | zero =>
    intro b e p vs s2 h
    replace h : Res.ok ([] : List Int) (⟨b, p⟩ : NBTState) = Res.ok vs s2 := h
    cases h
    exact ⟨rfl, rfl⟩
  | succ n ih =>
    intro b e p vs s2 h
    rw [readIntElems] at h
    obtain ⟨v1, s1, hv1, h2⟩ := Res.bind_eq_ok h
    clear h
    obtain ⟨d1, p1⟩ := s1
    obtain ⟨hv1e, hd, _⟩ := rdMono b e p v1 ⟨d1, p1⟩ hv1
    have hd1 : d1 = b := hd
    subst hd1
    have hv1e1 : rd ⟨d1 ++ e, p⟩ = .ok v1 ⟨d1 ++ e, p1⟩ := hv1e
    obtain ⟨vs1, s2x, hvs1, h3⟩ := Res.bind_eq_ok h2
    clear h2
    obtain ⟨hvse, hd2⟩ := ih d1 e p1 vs1 s2x hvs1
    have h31 : Res.ok (v1 :: vs1) s2x = Res.ok vs s2 := h3
    cases h31
    refine ⟨?_, hd2⟩
    rw [readIntElems, hv1e1, Res.bind_ok, hvse, Res.bind_ok]

theorem scalarCaseMono {α : Type} (rd : NBTState → Res α) (mk : α → Tag)
    (rdMono : ∀ (b e : List Nat) (p : Nat) (x : α) (s2 : NBTState),
      rd ⟨b, p⟩ = .ok x s2 →
      rd ⟨b ++ e, p⟩ = .ok x ⟨b ++ e, s2.pos⟩ ∧ s2.data = b ∧ s2.pos ≤ b.length) :
    ∀ (b e : List Nat) (p : Nat) (v : Tag) (s2 : NBTState),
      (rd ⟨b, p⟩).bind (fun x s1 => Res.ok (mk x) s1) = .ok v s2 →
      (rd ⟨b ++ e, p⟩).bind (fun x s1 => Res.ok (mk x) s1) = .ok v ⟨b ++ e, s2.pos⟩ ∧
        s2.data = b := by
  intro b e p v s2 h
  obtain ⟨x, s1, hx, hf⟩ := Res.bind_eq_ok h
  clear h
  obtain ⟨d1, p1⟩ := s1
  obtain ⟨hxe, hd, _⟩ := rdMono b e p x ⟨d1, p1⟩ hx
  have hd1 : d1 = b := hd
  subst hd1
  have hxe1 : rd ⟨d1 ++ e, p⟩ = .ok x ⟨d1 ++ e, p1⟩ := hxe
  have hf1 : Res.ok (mk x) (⟨d1, p1⟩ : NBTState) = Res.ok v s2 := hf
  cases hf1
  refine ⟨?_, rfl⟩
  rw [hxe1, Res.bind_ok]

theorem arrayCaseMono (rd : NBTState → Res Int) (mk : List Int → Tag)
    (rdMono : ∀ (b e : List Nat) (p : Nat) (v : Int) (s2 : NBTState),
      rd ⟨b, p⟩ = .ok v s2 →
      rd ⟨b ++ e, p⟩ = .ok v ⟨b ++ e, s2.pos⟩ ∧ s2.data = b ∧ s2.pos ≤ b.length) :
    ∀ (b e : List Nat) (p : Nat) (v : Tag) (s2 : NBTState),
      (readI32 ⟨b, p⟩).bind (fun len s1 =>
        (readIntElems rd (intToU64 len) s1).bind fun vs s2x => Res.ok (mk vs) s2x) =
        .ok v s2 →
      (readI32 ⟨b ++ e, p⟩).bind (fun len s1 =>
        (readIntElems rd (intToU64 len) s1).bind fun vs s2x => Res.ok (mk vs) s2x) =
        .ok v ⟨b ++ e, s2.pos⟩ ∧ s2.data = b := by
  intro b e p v s2 h
  obtain ⟨len, s1, hlen, h2⟩ := Res.bind_eq_ok h
  clear h
  obtain ⟨d1, p1⟩ := s1
  obtain ⟨hlene, hd, _⟩ := readI32_mono b e p len ⟨d1, p1⟩ hlen
  have hd1 : d1 = b := hd
  subst hd1
  have hlene1 : readI32 ⟨d1 ++ e, p⟩ = .ok len ⟨d1 ++ e, p1⟩ := hlene
  obtain ⟨vs, s2x, hvs, h3⟩ := Res.bind_eq_ok h2
  clear h2
  obtain ⟨hvse, hd2⟩ := readIntElems_mono rd rdMono (intToU64 len) d1 e p1 vs s2x hvs
  have h31 : Res.ok (mk vs) s2x = Res.ok v s2 := h3
  cases h31
  refine ⟨?_, hd2⟩
  rw [hlene1, Res.bind_ok, hvse, Res.bind_ok]

set_option maxHeartbeats 3000000 in
/-- Buffer-extension and fuel monotonicity of the recursive readers: a
successful read over a buffer succeeds identically (same value, same final
position) over any extension of that buffer, with at least as much fuel. -/
theorem readersMono (fuel : Nat) :
    ∀ (m : Nat), fuel ≤ m → ∀ (b e : List Nat) (p : Nat),
    (∀ (kind : Int) (v : Tag) (s2 : NBTState),
      readTagPayload fuel kind ⟨b, p⟩ = .ok v s2 →
      readTagPayload m kind ⟨b ++ e, p⟩ = .ok v ⟨b ++ e, s2.pos⟩ ∧ s2.data = b) ∧
    (∀ (v : Tag) (s2 : NBTState),
      readTagList fuel ⟨b, p⟩ = .ok v s2 →
      readTagList m ⟨b ++ e, p⟩ = .ok v ⟨b ++ e, s2.pos⟩ ∧ s2.data = b) ∧
    (∀ (kind : Int) (n : Nat) (vs : List Tag) (s2 : NBTState),
      readListElems fuel kind n ⟨b, p⟩ = .ok vs s2 →
      readListElems m kind n ⟨b ++ e, p⟩ = .ok vs ⟨b ++ e, s2.pos⟩ ∧ s2.data = b) ∧
    (∀ (acc : List (List Nat × Tag)) (v : Tag) (s2 : NBTState),
      readCompoundEntries fuel acc ⟨b, p⟩ = .ok v s2 →
      readCompoundEntries m acc ⟨b ++ e, p⟩ = .ok v ⟨b ++ e, s2.pos⟩ ∧ s2.data = b) := by
  induction fuel with
  | zero =>
    intro m hm b e p
    refine ⟨?_, ?_, ?_, ?_⟩
    · intro kind v s2 h; rw [readTagPayload] at h; exact Res.noConfusion h
    · intro v s2 h; rw [readTagList] at h; exact Res.noConfusion h
    · intro kind n vs s2 h; rw [readListElems] at h; exact Res.noConfusion h
    · intro acc v s2 h; rw [readCompoundEntries] at h; exact Res.noConfusion h
  | succ fuel ih =>
    intro m hm b e p
    obtain ⟨m1, rfl⟩ : ∃ m1, m = m1 + 1 := ⟨m - 1, by omega⟩
    have hm1 : fuel ≤ m1 := by omega
    refine ⟨?_, ?_, ?_, ?_⟩
    · intro kind v s2 h
      rw [readTagPayload] at h ⊢
      by_cases k0 : kind = 0
      · rw [if_pos k0] at h ⊢
        have h1 : Res.ok Tag.end_ (⟨b, p⟩ : NBTState) = Res.ok v s2 := h
        cases h1
        exact ⟨rfl, rfl⟩
      · rw [if_neg k0] at h ⊢
        by_cases k1 : kind = 1
        · rw [if_pos k1] at h ⊢
          exact scalarCaseMono readI8 Tag.byte readI8_mono b e p v s2 h
        · rw [if_neg k1] at h ⊢
          by_cases k2 : kind = 2
          · rw [if_pos k2] at h ⊢
            exact scalarCaseMono readI16 Tag.short readI16_mono b e p v s2 h
          · rw [if_neg k2] at h ⊢
            by_cases k3 : kind = 3
            · rw [if_pos k3] at h ⊢
              exact scalarCaseMono readI32 Tag.int readI32_mono b e p v s2 h
            · rw [if_neg k3] at h ⊢
              by_cases k4 : kind = 4
              · rw [if_pos k4] at h ⊢
                exact scalarCaseMono readI64 Tag.long readI64_mono b e p v s2 h
              · rw [if_neg k4] at h ⊢
                by_cases k5 : kind = 5
                · rw [if_pos k5] at h ⊢
                  exact scalarCaseMono readF32 Tag.float readF32_mono b e p v s2 h
                · rw [if_neg k5] at h ⊢
                  by_cases k6 : kind = 6
                  · rw [if_pos k6] at h ⊢
                    exact scalarCaseMono readF64 Tag.double readF64_mono b e p v s2 h
                  · rw [if_neg k6] at h ⊢
                    by_cases k7 : kind = 7
                    · rw [if_pos k7] at h ⊢
                      exact arrayCaseMono readI8 Tag.byteArray readI8_mono b e p v s2 h
                    · rw [if_neg k7] at h ⊢
                      by_cases k8 : kind = 8
                      · rw [if_pos k8] at h ⊢
                        exact scalarCaseMono readString Tag.string readString_mono b e p v s2 h
                      · rw [if_neg k8] at h ⊢
                        by_cases k9 : kind = 9
                        · rw [if_pos k9] at h ⊢
                          exact (ih m1 hm1 b e p).2.1 v s2 h
                        · rw [if_neg k9] at h ⊢
                          by_cases k10 : kind = 10
                          · rw [if_pos k10] at h ⊢
                            exact (ih m1 hm1 b e p).2.2.2 [] v s2 h
                          · rw [if_neg k10] at h ⊢
                            by_cases k11 : kind = 11
                            · rw [if_pos k11] at h ⊢
                              exact arrayCaseMono readI32 Tag.intArray readI32_mono b e p v s2 h
                            · rw [if_neg k11] at h ⊢
                              by_cases k12 : kind = 12
                              · rw [if_pos k12] at h ⊢
                                exact arrayCaseMono readI64 Tag.longArray readI64_mono b e p v s2 h
                              · rw [if_neg k12] at h ⊢
                                exact Res.noConfusion h
    · intro v s2 h
      rw [readTagList] at h
      obtain ⟨id, s1, hid, h2⟩ := Res.bind_eq_ok h
      clear h
      obtain ⟨d1, p1⟩ := s1
      obtain ⟨hide, hd, _⟩ := readI8_mono b e p id ⟨d1, p1⟩ hid
      have hd1 : d1 = b := hd
      subst hd1
      have hide1 : readID ⟨d1 ++ e, p⟩ = .ok id ⟨d1 ++ e, p1⟩ := hide
      replace h2 : (if 0 ≤ id ∧ id ≤ 12 then
          (readI32 (⟨d1, p1⟩ : NBTState)).bind (fun len s2x =>
            (readListElems fuel id (intToU64 len) s2x).bind fun ts s3 =>
              Res.ok (Tag.list ts) s3)
          else Res.fail) = Res.ok v s2 := h2
      by_cases hvalid : 0 ≤ id ∧ id ≤ 12
      · rw [if_pos hvalid] at h2
        obtain ⟨len, s2x, hlen, h3⟩ := Res.bind_eq_ok h2
        clear h2
        obtain ⟨d2, p2⟩ := s2x
        obtain ⟨hlene, hd2, _⟩ := readI32_mono d1 e p1 len ⟨d2, p2⟩ hlen
        have hd21 : d2 = d1 := hd2
        subst hd21
        have hlene1 : readI32 ⟨d2 ++ e, p1⟩ = .ok len ⟨d2 ++ e, p2⟩ := hlene
        obtain ⟨ts, s3, hts, h4⟩ := Res.bind_eq_ok h3
        clear h3
        obtain ⟨htse, hd3⟩ := (ih m1 hm1 d2 e p2).2.2.1 id (intToU64 len) ts s3 hts
        have h41 : Res.ok (Tag.list ts) s3 = Res.ok v s2 := h4
        cases h41
        refine ⟨?_, hd3⟩
        rw [readTagList, hide1]
        simp only [Res.bind_ok]
        rw [if_pos hvalid, hlene1]
        simp only [Res.bind_ok]
        rw [htse]
        simp only [Res.bind_ok]
      · rw [if_neg hvalid] at h2
        exact Res.noConfusion h2
    · intro kind n vs s2 h
      cases n with
      | zero =>
        replace h : Res.ok ([] : List Tag) (⟨b, p⟩ : NBTState) = Res.ok vs s2 := h
        cases h
        exact ⟨rfl, rfl⟩
      | succ n =>
        rw [readListElems] at h
        obtain ⟨t1, s1, ht1, h2⟩ := Res.bind_eq_ok h
        clear h
        obtain ⟨d1, p1⟩ := s1
        obtain ⟨ht1e, hd⟩ := (ih m1 hm1 b e p).1 kind t1 ⟨d1, p1⟩ ht1
        have hd1 : d1 = b := hd
        subst hd1
        have ht1e1 : readTagPayload m1 kind ⟨d1 ++ e, p⟩ = .ok t1 ⟨d1 ++ e, p1⟩ := ht1e
        obtain ⟨ts1, s2x, hts1, h3⟩ := Res.bind_eq_ok h2
        clear h2
        obtain ⟨htse, hd2⟩ := (ih m1 hm1 d1 e p1).2.2.1 kind n ts1 s2x hts1
        have h31 : Res.ok (t1 :: ts1) s2x = Res.ok vs s2 := h3
        cases h31
        refine ⟨?_, hd2⟩
        rw [readListElems, ht1e1, Res.bind_ok, htse, Res.bind_ok]
    · intro acc v s2 h
      rw [readCompoundEntries] at h
      obtain ⟨id, s1, hid, h2⟩ := Res.bind_eq_ok h
      clear h
      obtain ⟨d1, p1⟩ := s1
      obtain ⟨hide, hd, _⟩ := readI8_mono b e p id ⟨d1, p1⟩ hid
      have hd1 : d1 = b := hd
      subst hd1
      have hide1 : readID ⟨d1 ++ e, p⟩ = .ok id ⟨d1 ++ e, p1⟩ := hide
      replace h2 : (if id = 0 then Res.ok (Tag.compound acc) (⟨d1, p1⟩ : NBTState)
          else (readString ⟨d1, p1⟩).bind fun name s2y =>
            if id = 9 then
              (readTagList fuel s2y).bind fun lv s3 =>
                (readCompoundEntries fuel [] s3).bind fun cv s4 =>
                  readCompoundEntries fuel (mapEmplace [] cv (mapEmplace name lv acc)) s4
            else if 1 ≤ id ∧ id ≤ 12 then
              (readTagPayload fuel id s2y).bind fun w s3 =>
                readCompoundEntries fuel (mapEmplace name w acc) s3
            else Res.fail) = Res.ok v s2 := h2
      by_cases h0 : id = 0
      · rw [if_pos h0] at h2
        cases h2
        refine ⟨?_, rfl⟩
        rw [readCompoundEntries, hide1]
        simp only [Res.bind_ok]
        rw [if_pos h0]
      · rw [if_neg h0] at h2
        obtain ⟨name, s2y, hname, h3⟩ := Res.bind_eq_ok h2
        clear h2
        obtain ⟨d2, p2⟩ := s2y
        obtain ⟨hnamee, hd2, _⟩ := readString_mono d1 e p1 name ⟨d2, p2⟩ hname
        have hd21 : d2 = d1 := hd2
        subst hd21
        have hnamee1 : readString ⟨d2 ++ e, p1⟩ = .ok name ⟨d2 ++ e, p2⟩ := hnamee
        replace h3 : (if id = 9 then
            (readTagList fuel (⟨d2, p2⟩ : NBTState)).bind (fun lv s3 =>
              (readCompoundEntries fuel [] s3).bind fun cv s4 =>
                readCompoundEntries fuel (mapEmplace [] cv (mapEmplace name lv acc)) s4)
            else if 1 ≤ id ∧ id ≤ 12 then
              (readTagPayload fuel id (⟨d2, p2⟩ : NBTState)).bind (fun w s3 =>
                readCompoundEntries fuel (mapEmplace name w acc) s3)
            else Res.fail) = Res.ok v s2 := h3
        by_cases h9 : id = 9
        · rw [if_pos h9] at h3
          obtain ⟨lv, s3, hlv, h4⟩ := Res.bind_eq_ok h3
          clear h3
          obtain ⟨d3, p3⟩ := s3
          obtain ⟨hlve, hd3⟩ := (ih m1 hm1 d2 e p2).2.1 lv ⟨d3, p3⟩ hlv
          have hd31 : d3 = d2 := hd3
          subst hd31
          have hlve1 : readTagList m1 ⟨d3 ++ e, p2⟩ = .ok lv ⟨d3 ++ e, p3⟩ := hlve
          obtain ⟨cv, s4, hcv, h5⟩ := Res.bind_eq_ok h4
          clear h4
          obtain ⟨d4, p4⟩ := s4
          obtain ⟨hcve, hd4⟩ := (ih m1 hm1 d3 e p3).2.2.2 [] cv ⟨d4, p4⟩ hcv
          have hd41 : d4 = d3 := hd4
          subst hd41
          have hcve1 : readCompoundEntries m1 [] ⟨d4 ++ e, p3⟩ = .ok cv ⟨d4 ++ e, p4⟩ := hcve
          obtain ⟨hrece, hd5⟩ := (ih m1 hm1 d4 e p4).2.2.2
            (mapEmplace [] cv (mapEmplace name lv acc)) v s2 h5
          refine ⟨?_, hd5⟩
          rw [readCompoundEntries, hide1]
          simp only [Res.bind_ok]
          rw [if_neg h0, hnamee1]
          simp only [Res.bind_ok]
          rw [if_pos h9, hlve1]
          simp only [Res.bind_ok]
          rw [hcve1]
          simp only [Res.bind_ok]
          exact hrece
        · rw [if_neg h9] at h3
          by_cases h112 : 1 ≤ id ∧ id ≤ 12
          · rw [if_pos h112] at h3
            obtain ⟨w, s3, hw, h4⟩ := Res.bind_eq_ok h3
            clear h3
            obtain ⟨d3, p3⟩ := s3
            obtain ⟨hwe, hd3⟩ := (ih m1 hm1 d2 e p2).1 id w ⟨d3, p3⟩ hw
            have hd31 : d3 = d2 := hd3
            subst hd31
            have hwe1 : readTagPayload m1 id ⟨d3 ++ e, p2⟩ = .ok w ⟨d3 ++ e, p3⟩ := hwe
            obtain ⟨hrece, hd4⟩ := (ih m1 hm1 d3 e p3).2.2.2
              (mapEmplace name w acc) v s2 h4
            refine ⟨?_, hd4⟩
            rw [readCompoundEntries, hide1]
            simp only [Res.bind_ok]
            rw [if_neg h0, hnamee1]
            simp only [Res.bind_ok]
            rw [if_neg h9, if_pos h112, hwe1]
            simp only [Res.bind_ok]
            exact hrece
          · rw [if_neg h112] at h3
            exact Res.noConfusion h3

theorem fuelFor_le_append (b e : List Nat) : fuelFor b ≤ fuelFor (b ++ e) := by
  rw [fuelFor, fuelFor, List.length_append]
  omega

/-- C9: read never requires the buffer to be fully consumed: if read
succeeds on a buffer it succeeds with the same tree (and the same final
cursor position) on that buffer followed by any byte suffix; trailing
bytes are ignored. -/
theorem read_extends_to_suffix (b e : List Nat) (t : Tag) (s2 : NBTState)
    (h : read b = .ok t s2) : read (b ++ e) = .ok t ⟨b ++ e, s2.pos⟩ := by
  cases hid : readID ⟨b, 0⟩ with
  | ok id s1 =>
    simp only [read, hid] at h
    by_cases h10 : id = 10
    · subst h10
      rw [if_pos rfl] at h
      obtain ⟨name, s2x, hname, h2⟩ := Res.bind_eq_ok h
      clear h
      obtain ⟨d0, p0⟩ := s1
      obtain ⟨hide, hd0, _⟩ := readI8_mono b e 0 10 ⟨d0, p0⟩ hid
      have hd01 : d0 = b := hd0
      subst hd01
      have hide1 : readID ⟨d0 ++ e, 0⟩ = .ok 10 ⟨d0 ++ e, p0⟩ := hide
      obtain ⟨d1, p1⟩ := s2x
      obtain ⟨hnamee, hd1x, _⟩ := readString_mono d0 e p0 name ⟨d1, p1⟩ hname
      have hd11 : d1 = d0 := hd1x
      subst hd11
      have hnamee1 : readString ⟨d1 ++ e, p0⟩ = .ok name ⟨d1 ++ e, p1⟩ := hnamee
      obtain ⟨body, s3, hbody, h3⟩ := Res.bind_eq_ok h2
      clear h2
      have hbody1 : readCompoundEntries (fuelFor d1) [] ⟨d1, p1⟩ = .ok body s3 := hbody
      obtain ⟨hbodye, _⟩ :=
        (readersMono (fuelFor d1) (fuelFor (d1 ++ e)) (fuelFor_le_append d1 e)
          d1 e p1).2.2.2 [] body s3 hbody1
      have h31 : Res.ok (Tag.compound (mapEmplace name body [])) s3 = Res.ok t s2 := h3
      cases h31
      have hbodyw : readTagCompound (fuelFor (d1 ++ e)) ⟨d1 ++ e, p1⟩ =
          .ok body ⟨d1 ++ e, s2.pos⟩ := hbodye
      have hread : read (d1 ++ e) = ((readString ⟨d1 ++ e, p0⟩).bind fun name s2y =>
          (readTagCompound (fuelFor (d1 ++ e)) s2y).bind fun tag s3y =>
            Res.ok (Tag.compound (mapEmplace name tag [])) s3y) := by
        rw [read, hide1]
        exact rfl
      rw [hread, hnamee1]
      simp only [Res.bind_ok]
      rw [hbodyw]
      simp only [Res.bind_ok]
    · rw [if_neg h10] at h
      exact Res.noConfusion h
  | fail => simp only [read, hid] at h; exact Res.noConfusion h
  | oob => simp only [read, hid] at h; exact Res.noConfusion h
  | nofuel => simp only [read, hid] at h; exact Res.noConfusion h

theorem read_extends_to_suffix_witness :
    read ([10, 0, 0, 3, 0, 1, 120, 0, 0, 0, 42, 0] ++ [255, 7]) =
      Res.ok (Tag.compound [([], Tag.compound [([120], Tag.int 42)])])
        ⟨[10, 0, 0, 3, 0, 1, 120, 0, 0, 0, 42, 0] ++ [255, 7], 12⟩ :=
  read_extends_to_suffix [10, 0, 0, 3, 0, 1, 120, 0, 0, 0, 42, 0] [255, 7]
    (Tag.compound [([], Tag.compound [([120], Tag.int 42)])])
    ⟨[10, 0, 0, 3, 0, 1, 120, 0, 0, 0, 42, 0], 12⟩ rfl

end NBT
